import Mathlib

set_option maxRecDepth 8000

/-!
Verification of the Agentic-RAG-System query/citation pipeline.

The citation grouping and display logic is embedded from the frontend
sources (src/unnamed/part_000, the main React App, and
src/frontend/src/components/ChatMessage.jsx).  Strings are modelled as
lists of characters; JavaScript regular-expression behaviour (the
tolerant page pattern, the dot that does not cross line terminators,
first-occurrence string replacement), the prototype-chain lookup of a
plain object (a filename colliding with an inherited
`Object.prototype` property never creates an entry, and adding a page
to the inherited value throws), the float64 rounding behind the
`Number(a) - Number(b)` comparator, and JavaScript object-key
enumeration (array-index keys first, ascending, then insertion order)
are embedded explicitly.  The backend components absent from the
source tree (chunker, retriever similarity, generation orchestrator)
are modelled from the spec and marked as such in their doc comments.
-/

namespace AgenticRag

abbrev Str := List Char

def str (s : String) : Str := s.toList

/-- JavaScript whitespace: the character class of the regex `\s`,
which coincides with the set trimmed by `String.prototype.trim`. -/
def isJsWs (c : Char) : Bool :=
  c = ' ' || c = '\t' || c = '\n' || c = '\r' ||
  c.toNat = 11 || c.toNat = 12 || c.toNat = 0xa0 || c.toNat = 0x1680 ||
  (0x2000 ≤ c.toNat && c.toNat ≤ 0x200a) ||
  c.toNat = 0x2028 || c.toNat = 0x2029 || c.toNat = 0x202f ||
  c.toNat = 0x205f || c.toNat = 0x3000 || c.toNat = 0xfeff

/-- JavaScript line terminators: the characters that `.` in a regex
without the `s` flag does not match. -/
def isLineTerm (c : Char) : Bool :=
  c = '\n' || c = '\r' || c.toNat = 0x2028 || c.toNat = 0x2029

def isDigitCh (c : Char) : Bool := '0' ≤ c && c ≤ '9'

/-- The character class `[/\\]` used to strip path components. -/
def isPathSep (c : Char) : Bool := c = '/' || c = '\\'

/-- `String.prototype.trim`. -/
def jsTrim (s : Str) : Str :=
  ((s.dropWhile isJsWs).reverse.dropWhile isJsWs).reverse

/-- `sourceString.replace(/^\[Source:\s*/, '')` from the grouping code:
if the string starts with the literal 8 characters of the source tag,
drop them together with the following whitespace. -/
def stripSourceTag (s : Str) : Str :=
  if s.take 8 = str "[Source:" then (s.drop 8).dropWhile isJsWs else s

/-- `.replace(/\]$/, '')`: drop one trailing closing bracket. -/
def stripTrailingBracket (s : Str) : Str :=
  if s.getLast? = some ']' then s.dropLast else s

/-- `cleanSource` of the grouping code: strip the wrapper, the trailing
bracket, and surrounding whitespace. -/
def cleanSource (s : Str) : Str :=
  jsTrim (stripTrailingBracket (stripSourceTag s))

/-- The tail of the page regex `(?:,?\s*\(?Page\s*(\d+)\)?)$` applied to a
suffix of the cleaned string: optional comma, whitespace, optional opening
parenthesis, the word `page` case-insensitively, whitespace, one or more
digits, optional closing parenthesis, end of string.  Returns the digit
string captured by the group when the whole suffix matches. -/
def tailMatch (t : Str) : Option Str :=
  let t1 := match t with
    | ',' :: r => r
    | _ => t
  let t2 := t1.dropWhile isJsWs
  let t3 := match t2 with
    | '(' :: r => r
    | _ => t2
  match t3 with
  | p :: a :: g :: e :: r =>
    if p.toLower = 'p' ∧ a.toLower = 'a' ∧ g.toLower = 'g' ∧ e.toLower = 'e' then
      let r2 := r.dropWhile isJsWs
      let ds := r2.takeWhile isDigitCh
      let rest := r2.dropWhile isDigitCh
      if ds ≠ [] ∧ (rest = [] ∨ rest = [')']) then some ds else none
    else none
  | _ => none

/-- The position of the lazy group boundary: the least index `k` such
that the suffix of `s` from `k` matches the page-pattern tail. -/
def tailIdx (s : Str) : Option Nat :=
  (List.range (s.length + 1)).find? (fun k => (tailMatch (s.drop k)).isSome)

/-- The text captured by the first group `(.*?)` of the page regex when
the tail starts at index `k`: since `.` does not match line terminators,
the match restarts after the last line terminator before `k`, so only
the characters after it are captured. -/
def groupOne (s : Str) (k : Nat) : Str :=
  ((s.take k).reverse.takeWhile (fun c => !isLineTerm c)).reverse

structure Parsed where
  filename : Str
  page : Option Str
  deriving DecidableEq, Repr

/-- The filename/page extraction of the grouping code applied to the
cleaned string: try the page regex; on success the (trimmed) first group
is the filename and the digits are the page; otherwise split on the
first comma if present; otherwise the whole string is the filename. -/
def parseCleaned (cs : Str) : Parsed :=
  match tailIdx cs with
  | some k => ⟨jsTrim (groupOne cs k), tailMatch (cs.drop k)⟩
  | none =>
    if ',' ∈ cs then ⟨jsTrim (cs.takeWhile (fun c => c ≠ ',')), none⟩
    else ⟨cs, none⟩

/-- The staged parser exactly as the spec sentence describes it (the
claim C2 reading): after stripping the wrapper, if a trailing page
indicator matches then all the text before the indicator, trimmed, is
the filename; no restart at line terminators. -/
def parseCleanedSpec (cs : Str) : Parsed :=
  match tailIdx cs with
  | some k => ⟨jsTrim (cs.take k), tailMatch (cs.drop k)⟩
  | none =>
    if ',' ∈ cs then ⟨jsTrim (cs.takeWhile (fun c => c ≠ ',')), none⟩
    else ⟨cs, none⟩

def parseCitation (s : Str) : Parsed := parseCleaned (cleanSource s)

def parseCitationSpec (s : Str) : Parsed := parseCleanedSpec (cleanSource s)

/-- `String.prototype.split` on a character class, as a pair of the
first piece and the remaining pieces (so the result is never empty). -/
def jsSplitParts (p : Char → Bool) : Str → Str × List Str
  | [] => ([], [])
  | c :: cs =>
    let r := jsSplitParts p cs
    if p c then ([], r.1 :: r.2) else (c :: r.1, r.2)

def jsSplitOn (p : Char → Bool) (s : Str) : List Str :=
  (jsSplitParts p s).1 :: (jsSplitParts p s).2

/-- `filename.split(/[/\\]/).pop()` guarded by the `includes` test of the
grouping code. -/
def stripPath (f : Str) : Str :=
  if f.any isPathSep then (jsSplitOn isPathSep f).getLastD [] else f

/-- The spec-side description of path stripping: the base filename after
the last path separator. -/
def afterLastSep (f : Str) : Str :=
  (f.reverse.takeWhile (fun c => !isPathSep c)).reverse

/-- The cleaned filename a raw citation string contributes as a key. -/
def cleanedFilename (s : Str) : Str :=
  stripPath (parseCitation s).filename

def pageOf (s : Str) : Option Str := (parseCitation s).page

/-- `Set.prototype.add`: insertion-ordered, deduplicated by equality of
the page strings. -/
def addPage (ps : List Str) (pg : Str) : List Str :=
  if pg ∈ ps then ps else ps ++ [pg]

/-- The property names a plain object literal inherits from
`Object.prototype` (including the Annex B legacy accessors); reading
any of them on `groupedSources` yields a truthy value even when no own
key was ever created. -/
def objectProtoProps : List Str :=
  [str "constructor", str "hasOwnProperty", str "isPrototypeOf",
   str "propertyIsEnumerable", str "toLocaleString", str "toString",
   str "valueOf", str "__defineGetter__", str "__defineSetter__",
   str "__lookupGetter__", str "__lookupSetter__", str "__proto__"]

/-- The own-key update of the grouping loop, taken when the lookup
found an own entry or the guard created one: update the existing
entry's page set, or append a fresh entry holding the captured page. -/
def insertOwn : List (Str × List Str) → Str → Option Str → List (Str × List Str)
  | [], fn, pg => [(fn, match pg with | none => [] | some p => [p])]
  | (k, ps) :: rest, fn, pg =>
    if k = fn then
      (k, match pg with | none => ps | some p => addPage ps p) :: rest
    else (k, ps) :: insertOwn rest fn pg

/-- One step of the grouping loop over the plain object.  The guard
`!groupedSources[filename]` consults the own keys and then the
prototype chain, so the entry is created only when the filename is
neither an own key nor an inherited `Object.prototype` property name;
for an inherited name no entry exists, and the subsequent
`groupedSources[filename].pages.add(page)` throws a TypeError
(modelled as `none`) whenever a page was captured. -/
def insertEntry (acc : List (Str × List Str)) (fn : Str) (pg : Option Str) :
    Option (List (Str × List Str)) :=
  if fn ∈ acc.map Prod.fst ∨ fn ∉ objectProtoProps then some (insertOwn acc fn pg)
  else
    match pg with
    | none => some acc
    | some _ => none

/-- The `groupedSources` accumulation of the React App: entries keyed
by cleaned filename in insertion order, each carrying its page set in
insertion order; `none` models the loop aborting with a TypeError on a
prototype-colliding filename that carries a page. -/
def groupedSources (sources : List Str) : Option (List (Str × List Str)) :=
  sources.foldlM (fun acc s => insertEntry acc (cleanedFilename s) (pageOf s)) []

/-- `Object.keys(groupedSources).length`, the Verified References
count; `none` when the grouping loop threw and nothing is rendered. -/
def uniqueFileCount (sources : List Str) : Option Nat :=
  match groupedSources sources with
  | some entries => some ((entries.map Prod.fst).length)
  | none => none

/-- The exact integer value of a digit string. -/
def digitsToNat (ds : Str) : Nat :=
  ds.foldl (fun n c => 10 * n + (c.toNat - 48)) 0

/-- The IEEE-754 binary64 value of a natural number, given as the exact
natural value of the resulting double: exact below 2^53, rounded to 53
significant bits with ties to even above, and `none` (Infinity) when
the rounded value reaches 2^1024. -/
def f64OfNat (n : Nat) : Option Nat :=
  if n < 2 ^ 53 then some n
  else
    let s := n.log2 - 52
    let q := n / 2 ^ s
    let r := n % 2 ^ s
    let q2 := if 2 * r > 2 ^ s ∨ (2 * r = 2 ^ s ∧ q % 2 = 1) then q + 1 else q
    let v := q2 * 2 ^ s
    if v < 2 ^ 1024 then some v else none

/-- `Number(p)` of a digit string: the correctly rounded double of its
integer value, with `none` for Infinity. -/
def jsNumber (ds : Str) : Option Nat := f64OfNat (digitsToNat ds)

/-- Comparison of two double values with `none` as Infinity; note that
`Infinity - Infinity` is NaN, which the sort treats as a tie, so two
infinite values compare equal. -/
def optLe : Option Nat → Option Nat → Prop
  | _, none => True
  | none, some _ => False
  | some x, some y => x ≤ y

instance : ∀ u v : Option Nat, Decidable (optLe u v)
  | some _, none => isTrue trivial
  | none, none => isTrue trivial
  | none, some _ => isFalse id
  | some x, some y => inferInstanceAs (Decidable (x ≤ y))

/-- The comparator `(a, b) => Number(a) - Number(b)` as a relation on
the float64 values of the page strings. -/
def pageLe (a b : Str) : Prop := optLe (jsNumber a) (jsNumber b)

instance : DecidableRel pageLe :=
  fun a b => inferInstanceAs (Decidable (optLe (jsNumber a) (jsNumber b)))

theorem optLe_total : ∀ u v : Option Nat, optLe u v ∨ optLe v u
  | none, none => Or.inl trivial
  | some _, none => Or.inl trivial
  | none, some _ => Or.inr trivial
  | some x, some y => (Nat.le_total x y).imp id id

theorem optLe_trans : ∀ {u v w : Option Nat}, optLe u v → optLe v w → optLe u w
  | none, none, none, _, _ => trivial
  | none, some _, none, _, _ => trivial
  | some _, none, none, _, _ => trivial
  | some _, some _, none, _, _ => trivial
  | none, none, some _, _, hvw => absurd hvw id
  | some _, none, some _, _, hvw => absurd hvw id
  | none, some _, some _, huv, _ => absurd huv id
  | some _, some _, some _, huv, hvw => Nat.le_trans huv hvw

instance : IsTotal Str pageLe := ⟨fun x y => optLe_total (jsNumber x) (jsNumber y)⟩

instance : IsTrans Str pageLe := ⟨fun _ _ _ hab hbc => optLe_trans hab hbc⟩

/-- `Array.from(source.pages).sort((a, b) => Number(a) - Number(b))`:
JavaScript sort is stable, and a stable sort under this comparator is
insertion sort by float64 value (ties, including values beyond 2^53
that round to the same double, keep insertion order). -/
def sortPages (ps : List Str) : List Str := List.insertionSort pageLe ps

/-- Whether a key is an array index in the sense of the ECMAScript
object model: a canonical digit string (no leading zero except "0")
whose value is below 2^32 - 1.  Such own keys are enumerated first, in
ascending numeric order. -/
def isArrayIndex : Str → Bool
  | [] => false
  | c :: cs =>
    isDigitCh c && cs.all isDigitCh &&
    (decide (c ≠ '0') || decide (cs = [])) &&
    decide (digitsToNat (c :: cs) < 4294967295)

/-- `Object.keys` enumeration order on the grouped entries: array-index
keys first in ascending numeric order, then the remaining keys in
insertion order. -/
def objectKeys (entries : List (Str × List Str)) : List Str :=
  List.insertionSort pageLe ((entries.map Prod.fst).filter (fun k => isArrayIndex k))
    ++ (entries.map Prod.fst).filter (fun k => !isArrayIndex k)

/-- First-appearance order of cleaned filenames relative to a set of
already-seen keys: the insertion order in which the grouping loop
creates entries.  A filename colliding with an inherited
`Object.prototype` property never creates an entry, so it never
appears. -/
def restKeys (seen : List Str) : List Str → List Str
  | [] => []
  | s :: ss =>
    if cleanedFilename s ∈ seen ∨ cleanedFilename s ∈ objectProtoProps then
      restKeys seen ss
    else cleanedFilename s :: restKeys (cleanedFilename s :: seen) ss

/-- Leftmost occurrence search behind `String.prototype.replace` with a
string pattern: the text before the first occurrence and the text after
it, or none when the pattern does not occur. -/
def findSplit (pat : Str) : Str → Option (Str × Str)
  | [] => if pat = [] then some ([], []) else none
  | c :: cs =>
    if (c :: cs).take pat.length = pat then some ([], (c :: cs).drop pat.length)
    else
      match findSplit pat cs with
      | none => none
      | some (pre, post) => some (c :: pre, post)

/-- `s.replace(pat, rep)` with a string pattern: only the first
occurrence is replaced. -/
def jsReplaceFirst (pat rep s : Str) : Str :=
  match findSplit pat s with
  | none => s
  | some (pre, post) => pre ++ rep ++ post

/-- The label of an individual source chip in ChatMessage.jsx:
`source.replace('[Source: ', '').replace(']', '')`. -/
def chipLabel (s : Str) : Str :=
  jsReplaceFirst (str "]") [] (jsReplaceFirst (str "[Source: ") [] s)

/-- Index of the first occurrence of a pattern, specified directly as
the least position where the pattern appears. -/
def firstOcc (pat s : Str) : Option Nat :=
  (List.range (s.length + 1)).find? (fun i => decide ((s.drop i).take pat.length = pat))

/-- Removal of only the first occurrence of a literal substring, written
from the claim: the text up to the occurrence followed by the text after
it. -/
def removeFirstSpec (pat s : Str) : Str :=
  match firstOcc pat s with
  | none => s
  | some i => s.take i ++ s.drop (i + pat.length)

/-- Modelled from the spec: the retriever (absent from the source tree,
only described in spec.md section 4.4) converts a raw store distance to
a similarity score via 1 / (1 + distance). -/
def similarityScore (d : ℚ) : ℚ := 1 / (1 + d)

/-- Modelled from the spec: split a text on the leftmost occurrences of
a separator, fuel-bounded by the length of the text (the fuel is always
sufficient since every step consumes the nonempty separator). -/
def splitOnSepFuel (sep : Str) : Nat → Str → List Str
  | 0, s => [s]
  | fuel + 1, s =>
    match findSplit sep s with
    | none => [s]
    | some (pre, post) => pre :: splitOnSepFuel sep fuel post

def splitOnSep (sep : Str) (s : Str) : List Str := splitOnSepFuel sep s.length s

/-- Modelled from the spec: the character-level fallback of the chunker,
sliding windows of at most `maxLen` characters advancing by `step`
characters so adjacent pieces overlap. -/
def charChunksFuel (maxLen step : Nat) : Nat → Str → List Str
  | _, [] => []
  | 0, s => [s.take maxLen]
  | fuel + 1, s =>
    if s.length ≤ maxLen then [s]
    else s.take maxLen :: charChunksFuel maxLen step fuel (s.drop step)

def charChunks (maxLen step : Nat) (s : Str) : List Str :=
  charChunksFuel maxLen step s.length s

/-- Modelled from the spec (section 4.2, absent from the source tree):
recursive splitting on a priority list of separators; a piece that fits
is kept, an empty text produces no pieces, and when the separators are
exhausted the text is cut into overlapping character windows. -/
def chunkRec (maxLen overlap : Nat) : List Str → Str → List Str
  | [], s =>
    if s.length ≤ maxLen then (if s = [] then [] else [s])
    else charChunks maxLen (maxLen - overlap) s
  | sep :: rest, s =>
    if s.length ≤ maxLen then (if s = [] then [] else [s])
    else ((splitOnSep sep s).map (chunkRec maxLen overlap rest)).flatten

/-- Modelled from the spec: `chunk(text, maxLen=1000, overlap=200)` with
the separator priority list paragraph break, line break, space, then
raw characters. -/
def chunk (text : Str) : List Str :=
  chunkRec 1000 200 [str "\n\n", str "\n", str " "] text

inductive Outcome where
  | ok (text : Str)
  | err (reason : Str)
  deriving DecidableEq, Repr

structure Provider where
  name : Str
  result : Outcome
  deriving DecidableEq, Repr

inductive GenResult where
  | answer (text : Str)
  | allProvidersFailed
  deriving DecidableEq, Repr

/-- Modelled from the spec (section 4.6, absent from the source tree):
the generation orchestrator tries the providers laterally in order, one
attempt each, returning the first success; exhaustion of the list is
`allProvidersFailed`.  The first component is the trace of attempted
provider names in order. -/
def orchestrate : List Provider → List Str × GenResult
  | [] => ([], GenResult.allProvidersFailed)
  | p :: rest =>
    match p.result with
    | Outcome.ok t => ([p.name], GenResult.answer t)
    | Outcome.err _ =>
      let r := orchestrate rest
      (p.name :: r.1, r.2)

/-! ## Helper lemmas -/

theorem takeWhile_all {p : Char → Bool} :
    ∀ {l : Str}, (∀ c ∈ l, p c = true) → l.takeWhile p = l
  | [], _ => rfl
  | c :: cs, h => by
    have hc : p c = true := h c (List.mem_cons_self c cs)
    simp only [List.takeWhile_cons, hc, if_true]
    exact congrArg (c :: ·) (takeWhile_all fun x hx => h x (List.mem_cons_of_mem c hx))

theorem mem_jsTrim {c : Char} {s : Str} (h : c ∈ jsTrim s) : c ∈ s := by
  unfold jsTrim at h
  rw [List.mem_reverse] at h
  have h2 := (List.dropWhile_sublist _).subset h
  rw [List.mem_reverse] at h2
  exact (List.dropWhile_sublist _).subset h2

theorem mem_stripTrailingBracket {c : Char} {s : Str}
    (h : c ∈ stripTrailingBracket s) : c ∈ s := by
  unfold stripTrailingBracket at h
  split at h
  · exact (List.dropLast_sublist s).subset h
  · exact h

theorem mem_stripSourceTag {c : Char} {s : Str} (h : c ∈ stripSourceTag s) : c ∈ s := by
  unfold stripSourceTag at h
  split at h
  · exact (List.drop_sublist 8 s).subset ((List.dropWhile_sublist _).subset h)
  · exact h

theorem mem_cleanSource {c : Char} {s : Str} (h : c ∈ cleanSource s) : c ∈ s :=
  mem_stripSourceTag (mem_stripTrailingBracket (mem_jsTrim h))

theorem groupOne_eq_take {s : Str} (k : Nat)
    (h : ∀ c ∈ s, isLineTerm c = false) : groupOne s k = s.take k := by
  unfold groupOne
  rw [takeWhile_all, List.reverse_reverse]
  intro c hc
  rw [List.mem_reverse] at hc
  simp [h c (List.take_subset k s hc)]

theorem takeWhile_append_single {q : Char → Bool} {c : Char} (hq : q c = false) :
    ∀ xs : Str, (xs ++ [c]).takeWhile q = xs.takeWhile q
  | [] => by simp [List.takeWhile_cons, hq]
  | x :: xs => by
    by_cases hx : q x = true
    · simp [List.takeWhile_cons, hx, takeWhile_append_single hq xs]
    · simp only [Bool.not_eq_true] at hx
      simp [List.takeWhile_cons, hx]

theorem takeWhile_append_stop {q : Char → Bool} {ys : Str} :
    ∀ {xs : Str}, (∃ x ∈ xs, q x = false) →
      (xs ++ ys).takeWhile q = xs.takeWhile q
  | [], h => absurd h (by simp)
  | x :: xs, h => by
    cases hqx : q x with
    | false => simp [List.takeWhile_cons, hqx]
    | true =>
      obtain ⟨w, hw, hqw⟩ := h
      have hw' : w ∈ xs := by
        rcases List.mem_cons.mp hw with rfl | hmem
        · rw [hqx] at hqw; exact absurd hqw (by simp)
        · exact hmem
      simp [List.takeWhile_cons, hqx, takeWhile_append_stop ⟨w, hw', hqw⟩]

theorem jsSplitParts_cons_pos {p : Char → Bool} {c : Char} {cs : Str} (hc : p c = true) :
    jsSplitParts p (c :: cs) =
      ([], (jsSplitParts p cs).1 :: (jsSplitParts p cs).2) := by
  simp [jsSplitParts, hc]

theorem jsSplitParts_cons_neg {p : Char → Bool} {c : Char} {cs : Str} (hc : p c = false) :
    jsSplitParts p (c :: cs) =
      (c :: (jsSplitParts p cs).1, (jsSplitParts p cs).2) := by
  simp [jsSplitParts, hc]

theorem jsSplitParts_snd_nil {p : Char → Bool} :
    ∀ {l : Str}, (jsSplitParts p l).2 = [] →
      (jsSplitParts p l).1 = l ∧ ∀ c ∈ l, p c = false
  | [], _ => ⟨rfl, by simp⟩
  | c :: cs, h => by
    cases hc : p c with
    | true => rw [jsSplitParts_cons_pos hc] at h; exact absurd h (by simp)
    | false =>
      rw [jsSplitParts_cons_neg hc] at h ⊢
      obtain ⟨h1, h2⟩ := jsSplitParts_snd_nil h
      refine ⟨by rw [h1], ?_⟩
      intro x hx
      rcases List.mem_cons.mp hx with rfl | hmem
      · exact hc
      · exact h2 x hmem

theorem jsSplitParts_snd_ne {p : Char → Bool} :
    ∀ {l : Str}, (jsSplitParts p l).2 ≠ [] → ∃ x ∈ l, p x = true
  | [], h => absurd rfl h
  | c :: cs, h => by
    cases hc : p c with
    | true => exact ⟨c, List.mem_cons_self c cs, hc⟩
    | false =>
      rw [jsSplitParts_cons_neg hc] at h
      obtain ⟨x, hx, hpx⟩ := jsSplitParts_snd_ne h
      exact ⟨x, List.mem_cons_of_mem c hx, hpx⟩

/-- The last piece of the JavaScript split is exactly the suffix of the
string after its last separator. -/
theorem lastPiece_eq (p : Char → Bool) :
    ∀ l : Str,
      ((jsSplitParts p l).1 :: (jsSplitParts p l).2).getLastD [] =
        (l.reverse.takeWhile (fun c => !p c)).reverse
  | [] => rfl
  | c :: cs => by
    have ih := lastPiece_eq p cs
    cases hc : p c with
    | true =>
      rw [jsSplitParts_cons_pos hc]
      simp only [List.getLastD_cons]
      rw [show ((jsSplitParts p cs).1 :: (jsSplitParts p cs).2).getLastD [] =
            ((jsSplitParts p cs).1 :: (jsSplitParts p cs).2).getLastD [] from rfl] at ih
      simp only [List.getLastD_cons] at ih
      rw [ih, List.reverse_cons, takeWhile_append_single (by simp [hc]) cs.reverse]
    | false =>
      rw [jsSplitParts_cons_neg hc]
      by_cases hr : (jsSplitParts p cs).2 = []
      · obtain ⟨h1, h2⟩ := jsSplitParts_snd_nil hr
        rw [hr]
        simp only [List.getLastD_cons, List.getLastD_nil]
        rw [h1, List.reverse_cons, takeWhile_all, List.reverse_append,
          List.reverse_reverse]
        · rfl
        · intro x hx
          rcases List.mem_append.mp hx with hmem | hmem
          · simp [h2 x (List.mem_reverse.mp hmem)]
          · rcases List.mem_singleton.mp hmem with rfl
            simp [hc]
      · obtain ⟨y, ys, hys⟩ := List.exists_cons_of_ne_nil hr
        rw [hys]
        simp only [List.getLastD_cons]
        rw [hys] at ih
        simp only [List.getLastD_cons] at ih
        rw [ih, List.reverse_cons]
        obtain ⟨x, hx, hpx⟩ := jsSplitParts_snd_ne (by rw [hys]; simp)
        rw [takeWhile_append_stop ⟨x, List.mem_reverse.mpr hx, by simp [hpx]⟩]

/-- The `split`/`pop` combination equals taking the base filename after
the last path separator. -/
theorem stripPath_eq (f : Str) :
    stripPath f = if f.any isPathSep then afterLastSep f else f := by
  by_cases h : f.any isPathSep
  · simp only [stripPath, afterLastSep, jsSplitOn, h, if_true]
    exact lastPiece_eq isPathSep f
  · simp only [stripPath, h, if_false]
    simp [h]

theorem keys_insertOwn (fn : Str) (pg : Option Str) :
    ∀ acc : List (Str × List Str),
      (insertOwn acc fn pg).map Prod.fst =
        if fn ∈ acc.map Prod.fst then acc.map Prod.fst else acc.map Prod.fst ++ [fn]
  | [] => by cases pg <;> simp [insertOwn]
  | (k, ps) :: rest => by
    by_cases hk : k = fn
    · subst hk
      simp [insertOwn]
    · have ih := keys_insertOwn fn pg rest
      by_cases hmem : fn ∈ rest.map Prod.fst
      · simp [insertOwn, hk, hmem, ih, Ne.symm hk]
      · simp [insertOwn, hk, hmem, ih, Ne.symm hk]

theorem restKeys_congr :
    ∀ (l : List Str) (s1 s2 : List Str), (∀ x, x ∈ s1 ↔ x ∈ s2) →
      restKeys s1 l = restKeys s2 l
  | [], _, _, _ => rfl
  | s :: ss, s1, s2, h => by
    by_cases hk : cleanedFilename s ∈ s1 ∨ cleanedFilename s ∈ objectProtoProps
    · have hk2 : cleanedFilename s ∈ s2 ∨ cleanedFilename s ∈ objectProtoProps :=
        hk.imp (h _).mp id
      simp only [restKeys, if_pos hk, if_pos hk2]
      exact restKeys_congr ss s1 s2 h
    · have hk2 : ¬ (cleanedFilename s ∈ s2 ∨ cleanedFilename s ∈ objectProtoProps) :=
        fun hc => hk (hc.imp (h _).mpr id)
      simp only [restKeys, if_neg hk, if_neg hk2]
      refine congrArg _ (restKeys_congr ss _ _ ?_)
      intro x
      simp [h x]

theorem insertEntry_own {acc : List (Str × List Str)} {fn : Str} {pg : Option Str}
    (h : fn ∈ acc.map Prod.fst ∨ fn ∉ objectProtoProps) :
    insertEntry acc fn pg = some (insertOwn acc fn pg) := by
  unfold insertEntry
  rw [if_pos h]

theorem insertEntry_proto {acc : List (Str × List Str)} {fn : Str} {pg : Option Str}
    (hown : fn ∉ acc.map Prod.fst) (hproto : fn ∈ objectProtoProps) :
    insertEntry acc fn pg = match pg with | none => some acc | some _ => none := by
  unfold insertEntry
  rw [if_neg (by simp [hown, hproto])]

theorem keys_foldlM :
    ∀ (l : List Str) (acc out : List (Str × List Str)),
      l.foldlM (fun a s => insertEntry a (cleanedFilename s) (pageOf s)) acc =
          some out →
        out.map Prod.fst = acc.map Prod.fst ++ restKeys (acc.map Prod.fst) l
  | [], acc, out, h => by
    simp only [List.foldlM_nil] at h
    cases h
    simp [restKeys]
  | s :: ss, acc, out, h => by
    rw [List.foldlM_cons] at h
    by_cases hown : cleanedFilename s ∈ acc.map Prod.fst
    · rw [insertEntry_own (Or.inl hown)] at h
      have h2 : ss.foldlM (fun a s => insertEntry a (cleanedFilename s) (pageOf s))
          (insertOwn acc (cleanedFilename s) (pageOf s)) = some out := h
      rw [keys_foldlM ss _ out h2, keys_insertOwn, if_pos hown]
      simp only [restKeys, if_pos (Or.inl hown)]
    · by_cases hproto : cleanedFilename s ∈ objectProtoProps
      · cases hpg : pageOf s with
        | some p =>
          rw [insertEntry_proto hown hproto, hpg] at h
          exact Option.noConfusion h
        | none =>
          rw [insertEntry_proto hown hproto, hpg] at h
          have h2 : ss.foldlM (fun a s => insertEntry a (cleanedFilename s) (pageOf s))
              acc = some out := h
          rw [keys_foldlM ss acc out h2]
          simp only [restKeys, if_pos (Or.inr hproto)]
      · rw [insertEntry_own (Or.inr hproto)] at h
        have h2 : ss.foldlM (fun a s => insertEntry a (cleanedFilename s) (pageOf s))
            (insertOwn acc (cleanedFilename s) (pageOf s)) = some out := h
        rw [keys_foldlM ss _ out h2, keys_insertOwn, if_neg hown]
        simp only [restKeys, if_neg (show ¬ (cleanedFilename s ∈ acc.map Prod.fst ∨
          cleanedFilename s ∈ objectProtoProps) from by simp [hown, hproto])]
        rw [restKeys_congr ss (acc.map Prod.fst ++ [cleanedFilename s])
            (cleanedFilename s :: acc.map Prod.fst) (by intro x; simp [or_comm]),
          List.append_assoc]
        rfl

theorem keys_groupedSources {srcs : List Str} {entries : List (Str × List Str)}
    (h : groupedSources srcs = some entries) :
    entries.map Prod.fst = restKeys [] srcs := by
  have h2 := keys_foldlM srcs [] entries (by simpa [groupedSources] using h)
  simpa using h2

theorem mem_restKeys :
    ∀ (l : List Str) (seen : List Str) (a : Str),
      a ∈ restKeys seen l ↔
        a ∉ seen ∧ a ∉ objectProtoProps ∧ ∃ s ∈ l, cleanedFilename s = a
  | [], seen, a => by simp [restKeys]
  | s :: ss, seen, a => by
    by_cases hk : cleanedFilename s ∈ seen ∨ cleanedFilename s ∈ objectProtoProps
    · simp only [restKeys, if_pos hk, mem_restKeys ss]
      constructor
      · rintro ⟨ha, hp, s', hs', rfl⟩
        exact ⟨ha, hp, s', List.mem_cons_of_mem s hs', rfl⟩
      · rintro ⟨ha, hp, s', hs', rfl⟩
        rcases List.mem_cons.mp hs' with rfl | hmem
        · rcases hk with hk1 | hk2
          · exact absurd hk1 ha
          · exact absurd hk2 hp
        · exact ⟨ha, hp, s', hmem, rfl⟩
    · have hseen : cleanedFilename s ∉ seen := fun hc => hk (Or.inl hc)
      have hproto : cleanedFilename s ∉ objectProtoProps := fun hc => hk (Or.inr hc)
      simp only [restKeys, if_neg hk]
      constructor
      · intro hmem
        rcases List.mem_cons.mp hmem with rfl | hmem'
        · exact ⟨hseen, hproto, s, List.mem_cons_self s ss, rfl⟩
        · obtain ⟨ha, hp, s', hs', rfl⟩ := (mem_restKeys ss _ _).mp hmem'
          exact ⟨fun hc => ha (List.mem_cons_of_mem _ hc), hp, s',
            List.mem_cons_of_mem s hs', rfl⟩
      · rintro ⟨ha, hp, s', hs', rfl⟩
        by_cases hak : cleanedFilename s' = cleanedFilename s
        · rw [hak]
          exact List.mem_cons_self _ _
        · rcases List.mem_cons.mp hs' with rfl | hmem
          · exact absurd rfl hak
          · refine List.mem_cons_of_mem _
              ((mem_restKeys ss _ _).mpr ⟨?_, hp, s', hmem, rfl⟩)
            intro hc
            rcases List.mem_cons.mp hc with h1 | h2
            · exact hak h1
            · exact ha h2

theorem nodup_restKeys : ∀ (l : List Str) (seen : List Str), (restKeys seen l).Nodup
  | [], _ => List.nodup_nil
  | s :: ss, seen => by
    by_cases hk : cleanedFilename s ∈ seen ∨ cleanedFilename s ∈ objectProtoProps
    · simp only [restKeys, if_pos hk]
      exact nodup_restKeys ss seen
    · simp only [restKeys, if_neg hk]
      refine List.nodup_cons.mpr ⟨?_, nodup_restKeys ss _⟩
      intro hc
      exact ((mem_restKeys ss _ _).mp hc).1 (List.mem_cons_self _ _)

theorem length_restKeys_le :
    ∀ (l : List Str) (seen : List Str), (restKeys seen l).length ≤ l.length
  | [], _ => Nat.le_refl 0
  | s :: ss, seen => by
    by_cases hk : cleanedFilename s ∈ seen ∨ cleanedFilename s ∈ objectProtoProps
    · simp only [restKeys, if_pos hk, List.length_cons]
      exact Nat.le_succ_of_le (length_restKeys_le ss seen)
    · simp only [restKeys, if_neg hk, List.length_cons]
      exact Nat.succ_le_succ (length_restKeys_le ss _)

theorem addPage_nodup {ps : List Str} {pg : Str} (h : ps.Nodup) :
    (addPage ps pg).Nodup := by
  unfold addPage
  by_cases hm : pg ∈ ps
  · simp [hm, h]
  · simp [hm, List.nodup_append, h]

theorem insertOwn_pages (fn : Str) (pg : Option Str) :
    ∀ acc : List (Str × List Str), (∀ e ∈ acc, e.2.Nodup) →
      ∀ e ∈ insertOwn acc fn pg, e.2.Nodup
  | [], _, e, he => by
    cases pg with
    | none =>
      have he' : e = (fn, []) := by simpa [insertOwn] using he
      rw [he']
      simp
    | some p =>
      have he' : e = (fn, [p]) := by simpa [insertOwn] using he
      rw [he']
      simp
  | (k, ps) :: rest, h, e, he => by
    by_cases hk : k = fn
    · subst hk
      cases pg with
      | none =>
        have he' : e = (k, ps) ∨ e ∈ rest := by simpa [insertOwn] using he
        rcases he' with heq | hmem
        · rw [heq]
          exact h (k, ps) (List.mem_cons_self _ _)
        · exact h e (List.mem_cons_of_mem _ hmem)
      | some p =>
        have he' : e = (k, addPage ps p) ∨ e ∈ rest := by simpa [insertOwn] using he
        rcases he' with heq | hmem
        · rw [heq]
          exact addPage_nodup (h (k, ps) (List.mem_cons_self _ _))
        · exact h e (List.mem_cons_of_mem _ hmem)
    · have he' : e = (k, ps) ∨ e ∈ insertOwn rest fn pg := by
        simpa [insertOwn, hk] using he
      rcases he' with heq | hmem
      · rw [heq]
        exact h (k, ps) (List.mem_cons_self _ _)
      · exact insertOwn_pages fn pg rest
          (fun x hx => h x (List.mem_cons_of_mem _ hx)) e hmem

theorem insertEntry_some_pages {acc acc2 : List (Str × List Str)} {fn : Str}
    {pg : Option Str} (h : ∀ e ∈ acc, e.2.Nodup)
    (hstep : insertEntry acc fn pg = some acc2) : ∀ e ∈ acc2, e.2.Nodup := by
  unfold insertEntry at hstep
  by_cases hcond : fn ∈ acc.map Prod.fst ∨ fn ∉ objectProtoProps
  · rw [if_pos hcond] at hstep
    exact (Option.some.inj hstep) ▸ insertOwn_pages fn pg acc h
  · rw [if_neg hcond] at hstep
    cases pg with
    | none => exact (Option.some.inj hstep) ▸ h
    | some p => exact absurd hstep (by simp)

theorem foldlM_pages :
    ∀ (l : List Str) (acc out : List (Str × List Str)), (∀ e ∈ acc, e.2.Nodup) →
      l.foldlM (fun a s => insertEntry a (cleanedFilename s) (pageOf s)) acc =
          some out →
      ∀ e ∈ out, e.2.Nodup
  | [], acc, out, h, heq, e, he => by
    simp only [List.foldlM_nil] at heq
    cases heq
    exact h e he
  | s :: ss, acc, out, h, heq, e, he => by
    rw [List.foldlM_cons] at heq
    cases hstep : insertEntry acc (cleanedFilename s) (pageOf s) with
    | none =>
      rw [hstep] at heq
      exact Option.noConfusion heq
    | some acc2 =>
      rw [hstep] at heq
      have heq2 : ss.foldlM (fun a s => insertEntry a (cleanedFilename s) (pageOf s))
          acc2 = some out := heq
      exact foldlM_pages ss acc2 out (insertEntry_some_pages h hstep) heq2 e he

theorem pages_groupedSources {srcs : List Str} {entries : List (Str × List Str)}
    (h : groupedSources srcs = some entries) {e : Str × List Str} (he : e ∈ entries) :
    e.2.Nodup :=
  foldlM_pages srcs [] entries (by simp) (by simpa [groupedSources] using h) e he

theorem sorted_sortPages (ps : List Str) : List.Sorted pageLe (sortPages ps) :=
  List.sorted_insertionSort pageLe ps

theorem nodup_sortPages {ps : List Str} (h : ps.Nodup) : (sortPages ps).Nodup :=
  ((List.perm_insertionSort pageLe ps).nodup_iff).mpr h

theorem charChunksFuel_length {maxLen step : Nat} :
    ∀ (fuel : Nat) (s p : Str), p ∈ charChunksFuel maxLen step fuel s →
      p.length ≤ maxLen
  | _, [], p, hp => by simp [charChunksFuel] at hp
  | 0, c :: cs, p, hp => by
    simp only [charChunksFuel, List.mem_singleton] at hp
    rw [hp]
    exact List.length_take_le maxLen (c :: cs)
  | fuel + 1, c :: cs, p, hp => by
    by_cases h : (c :: cs).length ≤ maxLen
    · simp only [charChunksFuel, if_pos h, List.mem_singleton] at hp
      rw [hp]
      exact h
    · simp only [charChunksFuel, if_neg h, List.mem_cons] at hp
      rcases hp with rfl | hmem
      · exact List.length_take_le _ _
      · exact charChunksFuel_length fuel _ p hmem

theorem chunkRec_length {maxLen overlap : Nat} :
    ∀ (seps : List Str) (s p : Str), p ∈ chunkRec maxLen overlap seps s →
      p.length ≤ maxLen
  | [], s, p, hp => by
    unfold chunkRec at hp
    by_cases h : s.length ≤ maxLen
    · rw [if_pos h] at hp
      by_cases hs : s = []
      · rw [if_pos hs] at hp
        simp at hp
      · rw [if_neg hs, List.mem_singleton] at hp
        rw [hp]
        exact h
    · rw [if_neg h] at hp
      exact charChunksFuel_length _ _ _ hp
  | sep :: rest, s, p, hp => by
    unfold chunkRec at hp
    by_cases h : s.length ≤ maxLen
    · rw [if_pos h] at hp
      by_cases hs : s = []
      · rw [if_pos hs] at hp
        simp at hp
      · rw [if_neg hs, List.mem_singleton] at hp
        rw [hp]
        exact h
    · rw [if_neg h, List.mem_flatten] at hp
      obtain ⟨l, hl, hpl⟩ := hp
      rw [List.mem_map] at hl
      obtain ⟨x, _, rfl⟩ := hl
      exact chunkRec_length rest x p hpl

theorem firstOcc_cons (pat : Str) (c : Char) (cs : Str) :
    firstOcc pat (c :: cs) =
      if (c :: cs).take pat.length = pat then some 0
      else (firstOcc pat cs).map Nat.succ := by
  unfold firstOcc
  rw [show (c :: cs).length + 1 = cs.length + 1 + 1 from by simp]
  rw [List.range_succ_eq_map, List.find?_cons]
  by_cases h : (c :: cs).take pat.length = pat
  · simp [h]
  · rw [if_neg h]
    have hd : decide (((c :: cs).drop 0).take pat.length = pat) = false :=
      decide_eq_false (by simpa using h)
    simp only [hd]
    rw [List.find?_map]
    rfl

theorem findSplit_eq (pat : Str) :
    ∀ s : Str,
      findSplit pat s =
        (firstOcc pat s).map (fun i => (s.take i, s.drop (i + pat.length)))
  | [] => by
    by_cases h : pat = []
    · subst h
      decide
    · have h2 : ¬ (([] : Str).take pat.length = pat) := by
        simp only [List.take_nil]
        exact fun hc => h hc.symm
      have hr : List.range 1 = [0] := rfl
      simp [findSplit, firstOcc, h, hr, List.find?_cons, h2]
  | c :: cs => by
    rw [firstOcc_cons]
    by_cases h : (c :: cs).take pat.length = pat
    · simp only [findSplit, if_pos h, Option.map_some]
      simp
    · simp only [findSplit, if_neg h]
      rw [findSplit_eq pat cs]
      cases firstOcc pat cs with
      | none => simp
      | some i =>
        simp [List.take_succ_cons, Nat.succ_add, List.drop_succ_cons]

theorem jsReplaceFirst_remove (pat s : Str) :
    jsReplaceFirst pat [] s = removeFirstSpec pat s := by
  unfold jsReplaceFirst removeFirstSpec
  rw [findSplit_eq]
  cases firstOcc pat s with
  | none => rfl
  | some i => simp

/-! ## Claim theorems -/

/-- C1: on the input sequence
`["[Source: report.pdf, Page 3]", "[Source: report.pdf, Page 1]", "[Source: notes.txt]"]`
the grouping completes without throwing and produces exactly the two
entries `report.pdf` with numeric page list `[1, 3]` and `notes.txt`
with the empty page list, and the display iteration order puts
`report.pdf` before `notes.txt`. -/
theorem c1_grouping_example :
    (groupedSources
        [str "[Source: report.pdf, Page 3]", str "[Source: report.pdf, Page 1]",
          str "[Source: notes.txt]"]).map
        (fun entries => entries.map (fun e => (e.1, (sortPages e.2).map digitsToNat))) =
      some [(str "report.pdf", [1, 3]), (str "notes.txt", [])] ∧
    (groupedSources
        [str "[Source: report.pdf, Page 3]", str "[Source: report.pdf, Page 1]",
          str "[Source: notes.txt]"]).map objectKeys =
      some [str "report.pdf", str "notes.txt"] := by
  decide

/-- C2 counterexample: on the raw string `"[Source: a\nb, Page 3]"` the
code produces the filename `"b"` (the `.` of the page regex does not
cross the line terminator, so the match restarts after it), while the
staged description of the claim yields the filename `"a\nb"`. -/
theorem c2_staged_parser_counterexample :
    parseCitation (str "[Source: a\nb, Page 3]") ≠
      parseCitationSpec (str "[Source: a\nb, Page 3]") ∧
    parseCitation (str "[Source: a\nb, Page 3]") = ⟨ str "b", some (str "3")⟩ ∧
    parseCitationSpec (str "[Source: a\nb, Page 3]") = ⟨ str "a\nb", some (str "3")⟩ := by
  decide

/-- C2 amended: for every raw citation string that contains no line
terminator, the normalizer parses it exactly in the staged order the
claim describes (wrapper strip, then trailing page indicator, then
first-comma split, else whole string); on strings with line terminators
only the text after the last line terminator before the page indicator
becomes the filename. -/
theorem c2_staged_parser_amended (s : Str) (h : ∀ c ∈ s, isLineTerm c = false) :
    parseCitation s = parseCitationSpec s := by
  unfold parseCitation parseCitationSpec parseCleaned parseCleanedSpec
  have hcs : ∀ c ∈ cleanSource s, isLineTerm c = false :=
    fun c hc => h c (mem_cleanSource hc)
  cases htk : tailIdx (cleanSource s) with
  | none => rfl
  | some k => simp only [groupOne_eq_take k hcs]

theorem c2_staged_parser_witness :
    parseCitation (str "[Source: report.pdf, Page 3]") =
      parseCitationSpec (str "[Source: report.pdf, Page 3]") :=
  c2_staged_parser_amended (str "[Source: report.pdf, Page 3]") (by decide)

/-- C3: the key a raw citation string contributes to the grouped output
is its parsed filename with everything up to the last path separator
removed when the filename contains a forward slash or backslash, and
the parsed filename unchanged otherwise. -/
theorem c3_path_separator_stripping (s : Str) :
    cleanedFilename s =
      if (parseCitation s).filename.any isPathSep then
        afterLastSep (parseCitation s).filename
      else (parseCitation s).filename := by
  unfold cleanedFilename
  exact stripPath_eq (parseCitation s).filename

/-- C4 counterexample: on the input
`["[Source: a, Page 3]", "[Source: a, Page 03]"]` both raw strings
accumulate into the single entry `a`, but the displayed page list is
`["3", "03"]` — the JavaScript `Set` deduplicates the page strings, not
their numeric values, so the page number 3 appears twice. -/
theorem c4_pages_counterexample :
    (groupedSources [str "[Source: a, Page 3]", str "[Source: a, Page 03]"]).map
        (fun entries => entries.map (fun e => (e.1, (sortPages e.2).map digitsToNat))) =
      some [(str "a", [3, 3])] ∧
    ¬ ([3, 3] : List Nat).Nodup := by
  decide

/-- C4 amended: whenever the grouping loop completes without a
TypeError, all raw strings with the same cleaned filename accumulate
into a single entry (the key list has no duplicates; filenames
colliding with an inherited `Object.prototype` property create no
entry at all, and one carrying a page aborts the loop), and each
entry's page list is deduplicated as literal digit strings and
displayed sorted in ascending order of the float64 value
`Number(page)`; distinct digit strings with equal numeric value (such
as "3" and "03", or distinct integers rounding to the same double
beyond 2^53) may both appear, in insertion order. -/
theorem c4_pages_amended (srcs : List Str) (entries : List (Str × List Str))
    (h : groupedSources srcs = some entries) (e : Str × List Str)
    (he : e ∈ entries) :
    (entries.map Prod.fst).Nodup ∧
    e.2.Nodup ∧ (sortPages e.2).Nodup ∧ List.Sorted pageLe (sortPages e.2) := by
  refine ⟨?_, pages_groupedSources h he, nodup_sortPages (pages_groupedSources h he),
    sorted_sortPages e.2⟩
  rw [keys_groupedSources h]
  exact nodup_restKeys srcs []

theorem c4_pages_witness :
    (([((str "a" : Str), [str "3"])] : List (Str × List Str)).map Prod.fst).Nodup ∧
    ([str "3"] : List Str).Nodup ∧ (sortPages [str "3"]).Nodup ∧
    List.Sorted pageLe (sortPages [str "3"]) :=
  c4_pages_amended [str "[Source: a, Page 3]"] [(str "a", [str "3"])] (by decide)
    (str "a", [str "3"]) (by decide)

/-- C5 counterexample: on the input
`["[Source: notes.txt]", "[Source: 7]"]` the first-cited document is
`notes.txt`, but `Object.keys` enumerates the array-index-like key `7`
first, so the display iteration order is not the insertion order of
first appearance. -/
theorem c5_iteration_order_counterexample :
    groupedSources [str "[Source: notes.txt]", str "[Source: 7]"] =
      some [(str "notes.txt", []), (str "7", [])] ∧
    objectKeys [(str "notes.txt", []), (str "7", [])] = [str "7", str "notes.txt"] ∧
    [cleanedFilename (str "[Source: notes.txt]"), cleanedFilename (str "[Source: 7]")] =
      [str "notes.txt", str "7"] ∧
    objectKeys [(str "notes.txt", []), (str "7", [])] ≠ [str "notes.txt", str "7"] := by
  decide

/-- C5 amended: whenever the grouping loop completes without a
TypeError, the entries are iterated with the cleaned filenames that are
canonical array-index strings (digit strings without a leading zero and
below 2^32 - 1) first, in ascending numeric order, followed by all
remaining cleaned filenames in the insertion order of their first
appearance in the input; cleaned filenames colliding with an inherited
`Object.prototype` property never create an entry and never appear. -/
theorem c5_iteration_order_amended (srcs : List Str) (entries : List (Str × List Str))
    (h : groupedSources srcs = some entries) :
    objectKeys entries =
      List.insertionSort pageLe
          ((restKeys [] srcs).filter (fun k => isArrayIndex k)) ++
        (restKeys [] srcs).filter (fun k => !isArrayIndex k) := by
  unfold objectKeys
  rw [keys_groupedSources h]

theorem c5_iteration_order_witness :
    objectKeys [((str "notes.txt" : Str), ([] : List Str))] =
      List.insertionSort pageLe
          ((restKeys [] [str "[Source: notes.txt]"]).filter (fun k => isArrayIndex k)) ++
        (restKeys [] [str "[Source: notes.txt]"]).filter (fun k => !isArrayIndex k) :=
  c5_iteration_order_amended [str "[Source: notes.txt]"] [(str "notes.txt", [])]
    (by decide)

/-- C9 counterexample: on the input `["[Source: toString]"]` the guard
`!groupedSources[filename]` finds the inherited `Object.prototype`
method, so no entry is ever created: the Verified References count is
0 while the input has one distinct cleaned filename; and when such a
citation carries a page, as in `["[Source: toString, Page 2]"]`, the
grouping loop throws a TypeError. -/
theorem c9_reference_count_counterexample :
    uniqueFileCount [str "[Source: toString]"] = some 0 ∧
    [str "[Source: toString]"].map cleanedFilename = [str "toString"] ∧
    uniqueFileCount [str "[Source: toString]"] ≠
      some (([str "[Source: toString]"].map cleanedFilename).dedup.length) ∧
    groupedSources [str "[Source: toString, Page 2]"] = none := by
  decide

/-- C9 amended: whenever the grouping loop completes without a
TypeError, the Verified References count equals the number of distinct
cleaned filenames that do not coincide with an inherited
`Object.prototype` property name, and is at most the number of raw
citation strings; a cleaned filename colliding with an inherited
property creates no entry, and such a citation carrying a page makes
the loop throw. -/
theorem c9_reference_count_amended (srcs : List Str)
    (entries : List (Str × List Str)) (h : groupedSources srcs = some entries) :
    uniqueFileCount srcs = some ((entries.map Prod.fst).length) ∧
    (entries.map Prod.fst).length =
      ((((srcs.map cleanedFilename).filter
        (fun k => decide (k ∉ objectProtoProps))).toFinset)).card ∧
    (entries.map Prod.fst).length ≤ srcs.length := by
  have hk := keys_groupedSources h
  refine ⟨?_, ?_, ?_⟩
  · unfold uniqueFileCount
    rw [h]
  · rw [hk]
    have hset : (restKeys [] srcs).toFinset =
        ((srcs.map cleanedFilename).filter
          (fun k => decide (k ∉ objectProtoProps))).toFinset := by
      ext a
      simp only [List.mem_toFinset, mem_restKeys, List.mem_filter, List.mem_map,
        List.not_mem_nil, not_false_iff, true_and, decide_eq_true_eq]
      tauto
    rw [← hset]
    exact (List.toFinset_card_of_nodup (nodup_restKeys srcs [])).symm
  · rw [hk]
    exact length_restKeys_le srcs []

theorem c9_reference_count_witness :
    uniqueFileCount [str "[Source: a]"] =
      some (([((str "a" : Str), ([] : List Str))].map Prod.fst).length) ∧
    ([((str "a" : Str), ([] : List Str))].map Prod.fst).length =
      (((([str "[Source: a]"].map cleanedFilename).filter
        (fun k => decide (k ∉ objectProtoProps))).toFinset)).card ∧
    ([((str "a" : Str), ([] : List Str))].map Prod.fst).length ≤
      [str "[Source: a]"].length :=
  c9_reference_count_amended [str "[Source: a]"] [(str "a", [])] (by decide)

/-- C6: the spec-modelled similarity `1/(1+d)` of a candidate distance
`d ≥ 0` lies in the half-open interval `(0, 1]` (hence also in `[0, 1]`
as the data model asserts) and is strictly decreasing in the distance. -/
theorem c6_similarity_bounds (d e : ℚ) (hd : 0 ≤ d) (he : 0 ≤ e) :
    0 < similarityScore d ∧ similarityScore d ≤ 1 ∧
      (d < e → similarityScore e < similarityScore d) := by
  have h1 : (0 : ℚ) < 1 + d := by linarith
  refine ⟨one_div_pos.mpr h1, ?_, ?_⟩
  · rw [similarityScore, div_le_one h1]
    linarith
  · intro hlt
    unfold similarityScore
    exact one_div_lt_one_div_of_lt h1 (by linarith)

theorem c6_similarity_witness :
    0 < similarityScore 1 ∧ similarityScore 1 ≤ 1 ∧
      similarityScore 2 < similarityScore 1 :=
  ⟨(c6_similarity_bounds 1 2 (by norm_num) (by norm_num)).1,
   (c6_similarity_bounds 1 2 (by norm_num) (by norm_num)).2.1,
   (c6_similarity_bounds 1 2 (by norm_num) (by norm_num)).2.2 (by norm_num)⟩

/-- C8: with a provider list `[A, B]` where `A` fails, the spec-modelled
orchestrator attempts `A` once and then `B` once; it returns `B`'s
answer when `B` succeeds and raises `allProvidersFailed` when `B` also
fails, so no provider is ever attempted twice within one query. -/
theorem c8_provider_fallback (A B : Provider) (t ra rb : Str)
    (hA : A.result = Outcome.err ra) :
    (B.result = Outcome.ok t →
      orchestrate [A, B] = ([A.name, B.name], GenResult.answer t)) ∧
    (B.result = Outcome.err rb →
      orchestrate [A, B] = ([A.name, B.name], GenResult.allProvidersFailed)) := by
  constructor <;> intro hB <;> simp [orchestrate, hA, hB]

theorem c8_provider_fallback_witness :
    orchestrate [⟨ str "A", Outcome.err (str "x")⟩, ⟨ str "B", Outcome.ok (str "ans")⟩] =
      ([str "A", str "B"], GenResult.answer (str "ans")) ∧
    orchestrate [⟨ str "A", Outcome.err (str "x")⟩, ⟨ str "B", Outcome.err (str "y")⟩] =
      ([str "A", str "B"], GenResult.allProvidersFailed) :=
  ⟨(c8_provider_fallback ⟨ str "A", Outcome.err (str "x")⟩ ⟨ str "B", Outcome.ok (str "ans")⟩
      (str "ans") (str "x") (str "y") rfl).1 rfl,
   (c8_provider_fallback ⟨ str "A", Outcome.err (str "x")⟩ ⟨ str "B", Outcome.err (str "y")⟩
      (str "ans") (str "x") (str "y") rfl).2 rfl⟩

/-- C7: every piece produced by the spec-modelled
`chunk(text, maxLen=1000, overlap=200)` has length at most 1000. -/
theorem c7_chunk_length_bound (text p : Str) (hp : p ∈ chunk text) :
    p.length ≤ 1000 := by
  unfold chunk at hp
  exact chunkRec_length _ text p hp

theorem c7_chunk_length_witness :
    str "hi" ∈ chunk (str "hi") ∧ (str "hi").length ≤ 1000 :=
  ⟨by decide, c7_chunk_length_bound (str "hi") (str "hi") (by decide)⟩

/-- C10: the label of an individual source chip equals the raw source
string with only the first occurrence of the literal substring
`"[Source: "` and only the first occurrence of `"]"` removed; in
particular on `"[Source: a]b.pdf]"` the bracket inside the filename is
the one removed and the wrapper's closing bracket survives in the
displayed label. -/
theorem c10_chip_label (s : Str) :
    chipLabel s = removeFirstSpec (str "]") (removeFirstSpec (str "[Source: ") s) ∧
    chipLabel (str "[Source: a]b.pdf]") = str "ab.pdf]" := by
  constructor
  · unfold chipLabel
    rw [jsReplaceFirst_remove, jsReplaceFirst_remove]
  · decide

end AgenticRag
